import Mathlib

/-!
# Backup integrity, retention and locator logic of the cline-repair-tool

Shallow embedding of the hash, archive-naming, integrity-verification,
retention-pruning and backup-locator logic of `scripts/linux/repair_cline.py`
and `scripts/macos/repair_cline.py`. Files are modelled as byte lists
(`List Nat`, each byte below 256); a directory listing is a list of entries
carrying a name, a directory flag and a size; an unreadable file is `none`.
The `hashlib` digests are implemented in full (SHA-256, SHA-1, MD5) and
checked against the standard test vectors below.
-/

/-! ## 32-bit word arithmetic on Nat -/

def add32 (a b : Nat) : Nat := (a + b) % 4294967296

def rotr32 (n x : Nat) : Nat := ((x >>> n) ||| (x <<< (32 - n))) % 4294967296

def rotl32 (n x : Nat) : Nat := ((x <<< n) ||| (x >>> (32 - n))) % 4294967296

def not32 (x : Nat) : Nat := x ^^^ 0xffffffff

/-! ## Message padding and block decomposition, shared by the three digests -/

def lenBytesBE (bitLen : Nat) : List Nat :=
  [(bitLen >>> 56) &&& 255, (bitLen >>> 48) &&& 255, (bitLen >>> 40) &&& 255,
   (bitLen >>> 32) &&& 255, (bitLen >>> 24) &&& 255, (bitLen >>> 16) &&& 255,
   (bitLen >>> 8) &&& 255, bitLen &&& 255]

def lenBytesLE (bitLen : Nat) : List Nat := (lenBytesBE bitLen).reverse

def padZeroCount (len : Nat) : Nat := (64 - ((len + 9) % 64)) % 64

def mdPad (msg : List Nat) (littleEndianLen : Bool) : List Nat :=
  let lenB := if littleEndianLen then lenBytesLE (8 * msg.length)
              else lenBytesBE (8 * msg.length)
  msg ++ 0x80 :: (List.replicate (padZeroCount msg.length) 0 ++ lenB)

def chunk64Go : Nat → List Nat → List (List Nat)
  | _, [] => []
  | 0, _ => []
  | fuel + 1, b :: rest => ((b :: rest).take 64) :: chunk64Go fuel (rest.drop 63)

/-- Split a byte list into 64-byte blocks. The fuel equals the list length, so
it never runs out: every step consumes at least one element. -/
def chunk64 (l : List Nat) : List (List Nat) := chunk64Go l.length l

def bytesToWordsBE : List Nat → List Nat
  | b0 :: b1 :: b2 :: b3 :: rest =>
      ((b0 <<< 24) ||| (b1 <<< 16) ||| (b2 <<< 8) ||| b3) :: bytesToWordsBE rest
  | _ => []

def bytesToWordsLE : List Nat → List Nat
  | b0 :: b1 :: b2 :: b3 :: rest =>
      ((b3 <<< 24) ||| (b2 <<< 16) ||| (b1 <<< 8) ||| b0) :: bytesToWordsLE rest
  | _ => []

/-! ## SHA-256 -/

def sha256K : List Nat := [
  1116352408, 1899447441, 3049323471, 3921009573, 961987163, 1508970993, 2453635748, 2870763221,
  3624381080, 310598401, 607225278, 1426881987, 1925078388, 2162078206, 2614888103, 3248222580,
  3835390401, 4022224774, 264347078, 604807628, 770255983, 1249150122, 1555081692, 1996064986,
  2554220882, 2821834349, 2952996808, 3210313671, 3336571891, 3584528711, 113926993, 338241895,
  666307205, 773529912, 1294757372, 1396182291, 1695183700, 1986661051, 2177026350, 2456956037,
  2730485921, 2820302411, 3259730800, 3345764771, 3516065817, 3600352804, 4094571909, 275423344,
  430227734, 506948616, 659060556, 883997877, 958139571, 1322822218, 1537002063, 1747873779,
  1955562222, 2024104815, 2227730452, 2361852424, 2428436474, 2756734187, 3204031479, 3329325298]

def sha256H0 : List Nat := [
  1779033703, 3144134277, 1013904242, 2773480762, 1359893119, 2600822924, 528734635, 1541459225]

def shaCh (x y z : Nat) : Nat := (x &&& y) ^^^ (not32 x &&& z)

def shaMaj (x y z : Nat) : Nat := (x &&& y) ^^^ (x &&& z) ^^^ (y &&& z)

def shaBigSigma0 (x : Nat) : Nat := rotr32 2 x ^^^ rotr32 13 x ^^^ rotr32 22 x

def shaBigSigma1 (x : Nat) : Nat := rotr32 6 x ^^^ rotr32 11 x ^^^ rotr32 25 x

def shaSmallSigma0 (x : Nat) : Nat := rotr32 7 x ^^^ rotr32 18 x ^^^ (x >>> 3)

def shaSmallSigma1 (x : Nat) : Nat := rotr32 17 x ^^^ rotr32 19 x ^^^ (x >>> 10)

def sha256Extend (revAcc : List Nat) : Nat → List Nat
  | 0 => revAcc.reverse
  | n + 1 =>
      let nw := add32 (add32 (revAcc.getD 15 0) (shaSmallSigma0 (revAcc.getD 14 0)))
                      (add32 (revAcc.getD 6 0) (shaSmallSigma1 (revAcc.getD 1 0)))
      sha256Extend (nw :: revAcc) n

structure Sha256State where
  a : Nat
  b : Nat
  c : Nat
  d : Nat
  e : Nat
  f : Nat
  g : Nat
  hh : Nat

def sha256Round (s : Sha256State) (kw : Nat × Nat) : Sha256State :=
  let t1 := add32 (add32 s.hh (shaBigSigma1 s.e))
                  (add32 (shaCh s.e s.f s.g) (add32 kw.1 kw.2))
  let t2 := add32 (shaBigSigma0 s.a) (shaMaj s.a s.b s.c)
  ⟨add32 t1 t2, s.a, s.b, s.c, add32 s.d t1, s.e, s.f, s.g⟩

def sha256Block (hs block : List Nat) : List Nat :=
  let w := sha256Extend (bytesToWordsBE block).reverse 48
  let s0 : Sha256State := ⟨hs.getD 0 0, hs.getD 1 0, hs.getD 2 0, hs.getD 3 0,
                           hs.getD 4 0, hs.getD 5 0, hs.getD 6 0, hs.getD 7 0⟩
  let s := (sha256K.zip w).foldl sha256Round s0
  [add32 (hs.getD 0 0) s.a, add32 (hs.getD 1 0) s.b, add32 (hs.getD 2 0) s.c,
   add32 (hs.getD 3 0) s.d, add32 (hs.getD 4 0) s.e, add32 (hs.getD 5 0) s.f,
   add32 (hs.getD 6 0) s.g, add32 (hs.getD 7 0) s.hh]

def sha256Words (msg : List Nat) : List Nat :=
  (chunk64 (mdPad msg false)).foldl sha256Block sha256H0

/-! ## SHA-1 -/

def sha1H0 : List Nat := [1732584193, 4023233417, 2562383102, 271733878, 3285377520]

def sha1Extend (revAcc : List Nat) : Nat → List Nat
  | 0 => revAcc.reverse
  | n + 1 =>
      let nw := rotl32 1 (revAcc.getD 2 0 ^^^ revAcc.getD 7 0 ^^^
                          revAcc.getD 13 0 ^^^ revAcc.getD 15 0)
      sha1Extend (nw :: revAcc) n

structure Sha1State where
  a : Nat
  b : Nat
  c : Nat
  d : Nat
  e : Nat

def sha1F (i b c d : Nat) : Nat :=
  if i < 20 then (b &&& c) ||| (not32 b &&& d)
  else if i < 40 then b ^^^ c ^^^ d
  else if i < 60 then (b &&& c) ||| (b &&& d) ||| (c &&& d)
  else b ^^^ c ^^^ d

def sha1KOf (i : Nat) : Nat :=
  if i < 20 then 0x5a827999
  else if i < 40 then 0x6ed9eba1
  else if i < 60 then 0x8f1bbcdc
  else 0xca62c1d6

def sha1Round (s : Sha1State) (iw : Nat × Nat) : Sha1State :=
  let t := add32 (add32 (rotl32 5 s.a) (sha1F iw.1 s.b s.c s.d))
                 (add32 s.e (add32 (sha1KOf iw.1) iw.2))
  ⟨t, s.a, rotl32 30 s.b, s.c, s.d⟩

def sha1Block (hs block : List Nat) : List Nat :=
  let w := sha1Extend (bytesToWordsBE block).reverse 64
  let s0 : Sha1State := ⟨hs.getD 0 0, hs.getD 1 0, hs.getD 2 0, hs.getD 3 0, hs.getD 4 0⟩
  let s := w.enum.foldl sha1Round s0
  [add32 (hs.getD 0 0) s.a, add32 (hs.getD 1 0) s.b, add32 (hs.getD 2 0) s.c,
   add32 (hs.getD 3 0) s.d, add32 (hs.getD 4 0) s.e]

def sha1Words (msg : List Nat) : List Nat :=
  (chunk64 (mdPad msg false)).foldl sha1Block sha1H0

/-! ## MD5 -/

def md5K : List Nat := [
  3614090360, 3905402710, 606105819, 3250441966, 4118548399, 1200080426, 2821735955, 4249261313,
  1770035416, 2336552879, 4294925233, 2304563134, 1804603682, 4254626195, 2792965006, 1236535329,
  4129170786, 3225465664, 643717713, 3921069994, 3593408605, 38016083, 3634488961, 3889429448,
  568446438, 3275163606, 4107603335, 1163531501, 2850285829, 4243563512, 1735328473, 2368359562,
  4294588738, 2272392833, 1839030562, 4259657740, 2763975236, 1272893353, 4139469664, 3200236656,
  681279174, 3936430074, 3572445317, 76029189, 3654602809, 3873151461, 530742520, 3299628645,
  4096336452, 1126891415, 2878612391, 4237533241, 1700485571, 2399980690, 4293915773, 2240044497,
  1873313359, 4264355552, 2734768916, 1309151649, 4149444226, 3174756917, 718787259, 3951481745]

def md5S : List Nat := [
  7, 12, 17, 22, 7, 12, 17, 22, 7, 12, 17, 22, 7, 12, 17, 22,
  5, 9, 14, 20, 5, 9, 14, 20, 5, 9, 14, 20, 5, 9, 14, 20,
  4, 11, 16, 23, 4, 11, 16, 23, 4, 11, 16, 23, 4, 11, 16, 23,
  6, 10, 15, 21, 6, 10, 15, 21, 6, 10, 15, 21, 6, 10, 15, 21]

def md5H0 : List Nat := [1732584193, 4023233417, 2562383102, 271733878]

structure Md5State where
  a : Nat
  b : Nat
  c : Nat
  d : Nat

def md5F (i b c d : Nat) : Nat :=
  if i < 16 then (b &&& c) ||| (not32 b &&& d)
  else if i < 32 then (d &&& b) ||| (not32 d &&& c)
  else if i < 48 then b ^^^ c ^^^ d
  else c ^^^ (b ||| not32 d)

def md5G (i : Nat) : Nat :=
  if i < 16 then i
  else if i < 32 then (5 * i + 1) % 16
  else if i < 48 then (3 * i + 5) % 16
  else (7 * i) % 16

def md5Round (w : List Nat) (s : Md5State) (i : Nat) : Md5State :=
  let t := add32 (add32 (md5F i s.b s.c s.d) s.a)
                 (add32 (md5K.getD i 0) (w.getD (md5G i) 0))
  ⟨s.d, add32 s.b (rotl32 (md5S.getD i 0) t), s.b, s.c⟩

def md5Block (hs block : List Nat) : List Nat :=
  let w := bytesToWordsLE block
  let s0 : Md5State := ⟨hs.getD 0 0, hs.getD 1 0, hs.getD 2 0, hs.getD 3 0⟩
  let s := (List.range 64).foldl (md5Round w) s0
  [add32 (hs.getD 0 0) s.a, add32 (hs.getD 1 0) s.b, add32 (hs.getD 2 0) s.c,
   add32 (hs.getD 3 0) s.d]

def md5Words (msg : List Nat) : List Nat :=
  (chunk64 (mdPad msg true)).foldl md5Block md5H0

/-! ## Hex rendering of digests -/

def hexDigitsLower : List Char := "0123456789abcdef".data

def hexChar (n : Nat) : Char := hexDigitsLower.getD n '0'

def wordHexBE (x : Nat) : List Char :=
  [hexChar ((x >>> 28) &&& 15), hexChar ((x >>> 24) &&& 15),
   hexChar ((x >>> 20) &&& 15), hexChar ((x >>> 16) &&& 15),
   hexChar ((x >>> 12) &&& 15), hexChar ((x >>> 8) &&& 15),
   hexChar ((x >>> 4) &&& 15), hexChar (x &&& 15)]

def wordHexLE (x : Nat) : List Char :=
  [hexChar ((x >>> 4) &&& 15), hexChar (x &&& 15),
   hexChar ((x >>> 12) &&& 15), hexChar ((x >>> 8) &&& 15),
   hexChar ((x >>> 20) &&& 15), hexChar ((x >>> 16) &&& 15),
   hexChar ((x >>> 28) &&& 15), hexChar ((x >>> 24) &&& 15)]

def sha256Hex (msg : List Nat) : String := String.mk (((sha256Words msg).map wordHexBE).flatten)

def sha1Hex (msg : List Nat) : String := String.mk (((sha1Words msg).map wordHexBE).flatten)

def md5Hex (msg : List Nat) : String := String.mk (((md5Words msg).map wordHexLE).flatten)

/-! ## The hashing helpers of repair_cline.py -/

/-- Python str.lower restricted to ASCII, which is all the tool lowercases. -/
def lowerChar (c : Char) : Char :=
  if 'A' ≤ c ∧ c ≤ 'Z' then Char.ofNat (c.toNat + 32) else c

def pyLower (s : String) : String := String.mk (s.data.map lowerChar)

/-- Model of `calculate_file_hash` (linux lines 68-98). The file is its byte
contents, `none` when any read fails; the except-branch of the source turns
every failure into the empty string. -/
def calculate_file_hash (contents : Option (List Nat)) (strAlgorithm : String) : String :=
  match contents with
  | none => ""
  | some bytesData =>
      if pyLower strAlgorithm = "sha256" then sha256Hex bytesData
      else if pyLower strAlgorithm = "sha1" then sha1Hex bytesData
      else if pyLower strAlgorithm = "md5" then md5Hex bytesData
      else sha256Hex bytesData

/-- Model of `get_short_hash` (linux lines 100-110): the first 8 characters,
or the whole string when it is shorter. -/
def get_short_hash (strFullHash : String) : String :=
  if 8 ≤ strFullHash.length then String.mk (strFullHash.data.take 8) else strFullHash

/-! ## File-name analysis: the regular expressions of the tool as list predicates -/

def isHexDigitChar (c : Char) : Bool :=
  c.isDigit || (decide ('a' ≤ c) && decide (c ≤ 'f')) || (decide ('A' ≤ c) && decide (c ≤ 'F'))

/-- The full-match pattern of a backup directory name (8 digits, an
underscore, 6 digits and nothing else), as in the source regex. -/
def tsPatternL (l : List Char) : Bool :=
  l.length == 15 && (l.take 8).all Char.isDigit &&
    ((l.drop 8).take 1 == ['_']) && (l.drop 9).all Char.isDigit

def startsWithL : List Char → List Char → Bool
  | [], _ => true
  | _ :: _, [] => false
  | p :: ps, c :: cs => p == c && startsWithL ps cs

def endsWithL (suf l : List Char) : Bool := startsWithL suf.reverse l.reverse

/-- Python substring containment, `needle in hay`. -/
def hasSubstrL (needle : List Char) : List Char → Bool
  | [] => startsWithL needle []
  | c :: t => startsWithL needle (c :: t) || hasSubstrL needle t

def firstDotIdx : List Char → Option Nat
  | [] => none
  | c :: rest => if c == '.' then some 0 else (firstDotIdx rest).map (· + 1)

/-- Stem of os.path.splitext on a base name: cut at the last dot, unless every
character before that dot is itself a dot. -/
def splitextStem (l : List Char) : List Char :=
  match firstDotIdx l.reverse with
  | none => l
  | some i =>
      let sepIdx := l.length - 1 - i
      if (l.take sepIdx).any (fun c => c != '.') then l.take sepIdx else l

/-- Scanner for the anchored search pattern of the verifier (an underscore,
then 8 hex characters, then the end of the string), returning the captured
group of the leftmost match as re.search does. -/
def searchHashSuffix : List Char → Option (List Char)
  | [] => none
  | c :: rest =>
      if c == '_' && rest.length == 8 && rest.all isHexDigitChar then some rest
      else searchHashSuffix rest

/-- The condition the claims phrase directly: the name ends in an underscore
followed by exactly 8 hex characters. -/
def endsWithFingerprint (l : List Char) : Bool :=
  match l.drop (l.length - 9) with
  | '_' :: h => decide (9 ≤ l.length) && h.all isHexDigitChar
  | _ => false

/-! ## Integrity verification -/

/-- Model of `verify_backup_integrity` (linux lines 112-145). The archive is
its base file name plus its byte contents, `none` when the bytes cannot be
read. Result: `some true` = verified, `some false` = failed, `none` =
legacy/unknown format. -/
def verify_backup_integrity (zipName : String) (zipBytes : Option (List Nat))
    (strHashAlgorithm : String) : Option Bool :=
  let strFileName := splitextStem zipName.data
  match searchHashSuffix strFileName with
  | some captured =>
      let strExpectedHash := String.mk (captured.map lowerChar)
      let strFullHash := calculate_file_hash zipBytes strHashAlgorithm
      let strActualHash := String.mk ((get_short_hash strFullHash).data.map lowerChar)
      if strActualHash = strExpectedHash then some true else some false
  | none => none

/-! ## Directory listings and compression -/

structure FsEntry where
  name : String
  isDir : Bool
  size : Nat
deriving DecidableEq

/-- Outcome of a compression run: the path the function returns, whether the
uncompressed source directory was removed, and the archive written (if the
ZIP write got that far). -/
structure CompressOutcome where
  returnedPath : String
  srcRemoved : Bool
  archive : Option (String × List Nat)
deriving DecidableEq

/-- Stable insertion step for a descending sort by a string key: a newly
inserted element goes after the elements whose key ties with its own,
matching the stable Python list.sort with reverse=True. -/
def insertDescBy {α : Type} (key : α → String) (a : α) : List α → List α
  | [] => [a]
  | x :: xs => if key x < key a then a :: x :: xs else x :: insertDescBy key a xs

def sortDescBy {α : Type} (key : α → String) (l : List α) : List α :=
  l.foldl (fun acc a => insertDescBy key a acc) []

namespace Linux

def INT_MAX_BACKUPS : Nat := 367

/-- Linux STR_TIMESTAMP (line 49): the strftime output with an "_UTC" suffix. -/
def STR_TIMESTAMP_of (strftimeOut : String) : String := strftimeOut ++ "_UTC"

/-- Shape of every Linux STR_TIMESTAMP value: 8 digits, an underscore,
6 digits, then "_UTC". -/
def timestampShape (ts : String) : Bool :=
  tsPatternL (ts.data.take 15) && ts.data.drop 15 == "_UTC".data

/-- Model of `compress_backup_directory` (linux lines 206-271). Steps 1-2
(manifest hashing and naming) cannot raise: the hash helper swallows its own
errors. The fallible steps are the ZIP write (`zipWrite`) and the getsize
call of the stats step (`statOk`); the compression-ratio division is guarded
by the source, and the stats hashes reuse the non-raising hash helper. On any
exception the except-branch returns the source directory path; the rmtree of
the source directory runs only after all of steps 1-4 succeeded. -/
def compress_backup_directory (strTimestamp strBackupDir strBackupPath : String)
    (totalSize : Nat) (manifestBytes : Option (List Nat)) (strHashAlgorithm : String)
    (zipWrite : Except Unit (List Nat)) (statOk : Bool) : CompressOutcome :=
  let strFullHash := calculate_file_hash manifestBytes strHashAlgorithm
  let strShortHash := get_short_hash strFullHash
  let strZipFileName := "backup_" ++ strTimestamp ++ "_" ++ strShortHash ++ ".zip"
  let strZipPath := strBackupPath ++ "/" ++ strZipFileName
  match zipWrite with
  | .error _ => ⟨strBackupDir, false, none⟩
  | .ok zipBytes =>
      if statOk then ⟨strZipPath, true, some (strZipFileName, zipBytes)⟩
      else ⟨strBackupDir, false, some (strZipFileName, zipBytes)⟩

/-- Model of `remove_old_backups` (linux lines 730-773): the directory listing
after the call. Matching directory names are sorted descending and every name
beyond the intMaxBackups first is deleted by path. -/
def remove_old_backups (entries : List FsEntry) (intMaxBackups : Nat) : List FsEntry :=
  let arrBackups := (entries.filter (fun e => e.isDir && tsPatternL e.name.data)).map (·.name)
  let sorted := sortDescBy id arrBackups
  let arrToRemove := if intMaxBackups < sorted.length then sorted.drop intMaxBackups else []
  entries.filter (fun e => !(decide (e.name ∈ arrToRemove)))

end Linux

/-- The group captured by the ZIP-name prefix pattern of the locator
(the word backup, an underscore, then a 15-character timestamp). -/
def zipNameTimestamp (s : String) : Option String :=
  if startsWithL "backup_".data s.data then
    let ts := (s.data.drop 7).take 15
    if tsPatternL ts then some (String.mk ts) else none
  else none

/-- One candidate of the macOS backup locator. `rtype` carries the "type"
field of the source dictionary. -/
structure BackupRecord where
  name : String
  path : String
  timestamp : String
  size : Nat
  rtype : String
deriving DecidableEq

namespace MacOS

def INT_MAX_BACKUPS : Nat := 5

/-- macOS STR_TIMESTAMP (line 36): the bare strftime output, no suffix. -/
def STR_TIMESTAMP_of (strftimeOut : String) : String := strftimeOut

/-- Model of `remove_old_backups` (macos lines 504-551); the body is the very
text of the Linux variant. -/
def remove_old_backups (entries : List FsEntry) (intMaxBackups : Nat) : List FsEntry :=
  let arrBackups := (entries.filter (fun e => e.isDir && tsPatternL e.name.data)).map (·.name)
  let sorted := sortDescBy id arrBackups
  let arrToRemove := if intMaxBackups < sorted.length then sorted.drop intMaxBackups else []
  entries.filter (fun e => !(decide (e.name ∈ arrToRemove)))

/-- Model of `get_available_backups` (macos lines 841-889): classify each
directory entry (ZIP archive by name pattern, else backup directory), then
sort by timestamp descending with the stable sort of Python. -/
def get_available_backups (strBackupPath : String) (entries : List FsEntry) :
    List BackupRecord :=
  let step : List BackupRecord → FsEntry → List BackupRecord := fun arrBackups e =>
    let strFilePath := strBackupPath ++ "/" ++ e.name
    if endsWithL ".zip".data e.name.data && startsWithL "backup_".data e.name.data then
      match zipNameTimestamp e.name with
      | some ts => arrBackups ++ [⟨e.name, strFilePath, ts, e.size, "ZIP"⟩]
      | none => arrBackups
    else if e.isDir && tsPatternL e.name.data then
      arrBackups ++ [⟨e.name, strFilePath, e.name, e.size, "Directory"⟩]
    else arrBackups
  sortDescBy (fun r => r.timestamp) (entries.foldl step [])

/-- Model of `find_backup_by_identifier` (macos lines 919-953).
`existingPaths` models os.path.exists. -/
def find_backup_by_identifier (strIdentifier strBackupPath : String)
    (existingPaths : List String) (entries : List FsEntry) : Option String :=
  if strIdentifier ∈ existingPaths then some strIdentifier
  else
    match get_available_backups strBackupPath entries with
    | [] => none
    | b :: rest =>
        if strIdentifier = "latest" then some b.path
        else ((b :: rest).find? fun r =>
            r.timestamp == strIdentifier || hasSubstrL strIdentifier.data r.name.data).map
          (fun r => r.path)

end MacOS

theorem startsWithL_iff (p l : List Char) :
    startsWithL p l = true ↔ ∃ t, l = p ++ t := by
  induction p generalizing l with
  | nil => simp [startsWithL]
  | cons c cs ih =>
    cases l with
    | nil => simp [startsWithL]
    | cons d ds =>
      simp only [startsWithL, Bool.and_eq_true, beq_iff_eq, ih, List.cons_append,
        List.cons.injEq]
      constructor
      · rintro ⟨rfl, t, rfl⟩; exact ⟨t, rfl, rfl⟩
      · rintro ⟨t, rfl, rfl⟩; exact ⟨rfl, t, rfl⟩

theorem endsWithL_iff (s l : List Char) :
    endsWithL s l = true ↔ ∃ p, l = p ++ s := by
  rw [endsWithL, startsWithL_iff]
  constructor
  · rintro ⟨t, ht⟩
    refine ⟨t.reverse, ?_⟩
    have := congrArg List.reverse ht
    simpa using this
  · rintro ⟨p, rfl⟩
    exact ⟨p.reverse, by simp⟩

theorem searchHashSuffix_eq_some_iff (l h : List Char) :
    searchHashSuffix l = some h ↔
      ∃ pre, l = pre ++ '_' :: h ∧ h.length = 8 ∧ h.all isHexDigitChar = true := by
  induction l with
  | nil => simp [searchHashSuffix]
  | cons c rest ih =>
    simp only [searchHashSuffix]
    split
    · rename_i hc
      simp only [Bool.and_eq_true, beq_iff_eq] at hc
      obtain ⟨⟨rfl, hlen⟩, hhex⟩ := hc
      simp only [Option.some.injEq]
      constructor
      · rintro rfl
        exact ⟨[], rfl, hlen, hhex⟩
      · rintro ⟨pre, heq, hlen8, _⟩
        cases pre with
        | nil =>
          have h1 : rest = h := by simpa using heq
          simp [h1]
        | cons p ps =>
          exfalso
          have h1 := congrArg List.length heq
          simp only [List.length_cons, List.length_append] at h1
          omega
    · rename_i hc
      rw [ih]
      constructor
      · rintro ⟨pre, rfl, hlen, hhex⟩
        exact ⟨c :: pre, rfl, hlen, hhex⟩
      · rintro ⟨pre, heq, hlen, hhex⟩
        cases pre with
        | nil =>
          exfalso
          have h1 : c = '_' ∧ rest = h := by simpa using heq
          rw [h1.1, h1.2] at hc
          simp [hlen, hhex] at hc
        | cons p ps =>
          have h1 : c = p ∧ rest = ps ++ '_' :: h := by simpa using heq
          exact ⟨ps, h1.2, hlen, hhex⟩

theorem endsWithFingerprint_iff (l : List Char) :
    endsWithFingerprint l = true ↔
      ∃ pre h, l = pre ++ '_' :: h ∧ h.length = 8 ∧ h.all isHexDigitChar = true := by
  constructor
  · intro he
    unfold endsWithFingerprint at he
    split at he
    · rename_i h hdrop
      simp only [Bool.and_eq_true, decide_eq_true_eq] at he
      obtain ⟨hlen9, hhex⟩ := he
      refine ⟨l.take (l.length - 9), h, ?_, ?_, hhex⟩
      · conv_lhs => rw [← List.take_append_drop (l.length - 9) l]
        rw [hdrop]
      · have := congrArg List.length hdrop
        simp only [List.length_drop, List.length_cons] at this
        omega
    · exact absurd he (by simp)
  · rintro ⟨pre, h, rfl, hlen, hhex⟩
    unfold endsWithFingerprint
    have hL : (pre ++ '_' :: h).length = pre.length + 9 := by simp [hlen]
    have hdrop : (pre ++ '_' :: h).drop ((pre ++ '_' :: h).length - 9) = '_' :: h := by
      rw [hL, Nat.add_sub_cancel, List.drop_append_eq_append_drop]
      simp
    rw [hdrop]
    simp [hL, hhex]

theorem searchHashSuffix_eq_none_iff (l : List Char) :
    searchHashSuffix l = none ↔ endsWithFingerprint l = false := by
  constructor
  · intro hn
    by_contra hne
    have ht : endsWithFingerprint l = true := by
      cases hef : endsWithFingerprint l
      · exact absurd hef hne
      · rfl
    obtain ⟨pre, h, heq, hlen, hhex⟩ := (endsWithFingerprint_iff l).mp ht
    have : searchHashSuffix l = some h :=
      (searchHashSuffix_eq_some_iff l h).mpr ⟨pre, heq, hlen, hhex⟩
    rw [this] at hn
    cases hn
  · intro hf
    cases hs : searchHashSuffix l with
    | none => rfl
    | some h =>
      obtain ⟨pre, heq, hlen, hhex⟩ := (searchHashSuffix_eq_some_iff l h).mp hs
      have : endsWithFingerprint l = true :=
        (endsWithFingerprint_iff l).mpr ⟨pre, h, heq, hlen, hhex⟩
      rw [this] at hf
      cases hf

theorem insertDescBy_perm {α : Type} (key : α → String) (a : α) (l : List α) :
    (insertDescBy key a l).Perm (a :: l) := by
  induction l with
  | nil => simp [insertDescBy]
  | cons x xs ih =>
    simp only [insertDescBy]
    split
    · exact List.Perm.refl _
    · exact (ih.cons x).trans (List.Perm.swap a x xs)

theorem sortDescByGo_perm {α : Type} (key : α → String) :
    ∀ (l acc : List α), (l.foldl (fun acc a => insertDescBy key a acc) acc).Perm (l ++ acc)
  | [], acc => by simp
  | a :: t, acc => by
    simp only [List.foldl_cons]
    have h1 := sortDescByGo_perm key t (insertDescBy key a acc)
    have h2 : (t ++ insertDescBy key a acc).Perm (t ++ a :: acc) :=
      List.Perm.append_left t (insertDescBy_perm key a acc)
    have h3 : (t ++ a :: acc).Perm (a :: (t ++ acc)) := List.perm_middle
    simpa using (h1.trans h2).trans h3

theorem sortDescBy_perm {α : Type} (key : α → String) (l : List α) :
    (sortDescBy key l).Perm l := by
  have := sortDescByGo_perm key l []
  simpa [sortDescBy] using this

theorem insertDescBy_pairwise {α : Type} (key : α → String) (a : α) (l : List α)
    (h : l.Pairwise (fun x y => key y ≤ key x)) :
    (insertDescBy key a l).Pairwise (fun x y => key y ≤ key x) := by
  induction l with
  | nil => simp [insertDescBy]
  | cons x xs ih =>
    rw [List.pairwise_cons] at h
    obtain ⟨hx, hxs⟩ := h
    simp only [insertDescBy]
    split
    · rename_i hlt
      refine List.Pairwise.cons ?_ (List.Pairwise.cons hx hxs)
      intro b hb
      rcases List.mem_cons.mp hb with rfl | hb'
      · exact le_of_lt hlt
      · exact (hx b hb').trans (le_of_lt hlt)
    · rename_i hnlt
      refine List.Pairwise.cons ?_ (ih hxs)
      intro b hb
      have hb' := (insertDescBy_perm key a xs).mem_iff.mp hb
      rcases List.mem_cons.mp hb' with rfl | hb''
      · exact le_of_not_lt hnlt
      · exact hx b hb''

theorem sortDescByGo_pairwise {α : Type} (key : α → String) :
    ∀ (l acc : List α), acc.Pairwise (fun x y => key y ≤ key x) →
      (l.foldl (fun acc a => insertDescBy key a acc) acc).Pairwise (fun x y => key y ≤ key x)
  | [], _, h => h
  | a :: t, acc, h => by
    simp only [List.foldl_cons]
    exact sortDescByGo_pairwise key t _ (insertDescBy_pairwise key a acc h)

theorem sortDescBy_pairwise {α : Type} (key : α → String) (l : List α) :
    (sortDescBy key l).Pairwise (fun x y => key y ≤ key x) :=
  sortDescByGo_pairwise key l [] List.Pairwise.nil

theorem mem_drop_iff_countP {l : List String} (hs : l.Pairwise (fun x y => y < x)) :
    ∀ {x : String}, x ∈ l → ∀ k : Nat,
      (x ∈ l.drop k ↔ k ≤ l.countP (fun y => decide (x < y))) := by
  induction l with
  | nil => intro x hx; cases hx
  | cons a t ih =>
    rw [List.pairwise_cons] at hs
    obtain ⟨ha, ht⟩ := hs
    intro x hx k
    cases k with
    | zero =>
      simp only [List.drop_zero, Nat.zero_le, iff_true]
      exact hx
    | succ k =>
      rw [List.drop_succ_cons]
      rcases List.mem_cons.mp hx with rfl | hxt
      · constructor
        · intro hmem
          exact absurd (ha x (List.mem_of_mem_drop hmem)) (lt_irrefl x)
        · intro hk
          have hzero : (x :: t).countP (fun y => decide (x < y)) = 0 := by
            rw [List.countP_eq_zero]
            intro y hy
            rcases List.mem_cons.mp hy with rfl | hyt
            · simp
            · simp only [decide_eq_true_eq]
              exact fun hlt => absurd (ha y hyt) (lt_asymm hlt)
          rw [hzero] at hk
          exact absurd hk (by omega)
      · have hax : x < a := ha x hxt
        rw [ih ht hxt k, List.countP_cons]
        have hxa : (decide (x < a)) = true := by simpa using hax
        rw [hxa]
        simp only [if_true]
        omega

/-! ## Helper lemmas: the retention manager -/

def backupDirNames (entries : List FsEntry) : List String :=
  (entries.filter (fun e => e.isDir && tsPatternL e.name.data)).map (fun e => e.name)

theorem remove_old_backups_eq_filter (entries : List FsEntry) (m : Nat) :
    Linux.remove_old_backups entries m =
      entries.filter
        (fun e => !(decide (e.name ∈ (sortDescBy id (backupDirNames entries)).drop m))) := by
  simp only [Linux.remove_old_backups, backupDirNames]
  by_cases h : m <
      (sortDescBy id ((entries.filter
        (fun e => e.isDir && tsPatternL e.name.data)).map (fun e => e.name))).length
  · rw [if_pos h]
  · rw [if_neg h]
    simp only [List.drop_eq_nil_of_le (le_of_not_lt h)]

theorem mem_remove_old_backups {entries : List FsEntry} {m : Nat} {e : FsEntry} :
    e ∈ Linux.remove_old_backups entries m ↔
      e ∈ entries ∧ e.name ∉ (sortDescBy id (backupDirNames entries)).drop m := by
  rw [remove_old_backups_eq_filter, List.mem_filter]
  simp

theorem entry_eq_of_name_eq {entries : List FsEntry}
    (hnd : (entries.map (fun e => e.name)).Nodup) {e f : FsEntry}
    (he : e ∈ entries) (hf : f ∈ entries) (h : e.name = f.name) : e = f :=
  List.inj_on_of_nodup_map hnd he hf h

theorem mem_backupDirNames {entries : List FsEntry} {x : String} :
    x ∈ backupDirNames entries ↔
      ∃ e ∈ entries, e.isDir = true ∧ tsPatternL e.name.data = true ∧ e.name = x := by
  unfold backupDirNames
  simp only [List.mem_map, List.mem_filter, Bool.and_eq_true]
  constructor
  · rintro ⟨e, ⟨he, hd, hp⟩, rfl⟩
    exact ⟨e, he, hd, hp, rfl⟩
  · rintro ⟨e, he, hd, hp, rfl⟩
    exact ⟨e, ⟨he, hd, hp⟩, rfl⟩

theorem backupDirNames_nodup {entries : List FsEntry}
    (hnd : (entries.map (fun e => e.name)).Nodup) : (backupDirNames entries).Nodup := by
  unfold backupDirNames
  exact List.Nodup.sublist
    (List.Sublist.map (fun e => e.name) (List.filter_sublist entries)) hnd

theorem sortDescBy_names_strict {names : List String} (hnd : names.Nodup) :
    (sortDescBy id names).Pairwise (fun x y => y < x) := by
  have hp := sortDescBy_pairwise id names
  have hn : (sortDescBy id names).Nodup := ((sortDescBy_perm id names).nodup_iff).mpr hnd
  exact (hp.and hn).imp (fun h => lt_of_le_of_ne h.1 (Ne.symm h.2))

/-! ## Helper lemmas: the timestamp pattern -/

theorem tsPatternL_decomp {l : List Char} (h : tsPatternL l = true) :
    ∃ d8 d6, l = d8 ++ '_' :: d6 ∧ d8.length = 8 ∧ d6.length = 6 ∧
      d8.all Char.isDigit = true ∧ d6.all Char.isDigit = true := by
  unfold tsPatternL at h
  simp only [Bool.and_eq_true, beq_iff_eq] at h
  obtain ⟨⟨⟨hlen, h8⟩, hu⟩, h9⟩ := h
  refine ⟨l.take 8, l.drop 9, ?_, ?_, ?_, h8, h9⟩
  · conv_lhs => rw [← List.take_append_drop 8 l]
    congr 1
    have h1 : l.drop 8 = (l.drop 8).take 1 ++ (l.drop 8).drop 1 :=
      (List.take_append_drop 1 _).symm
    rw [h1, hu, List.drop_drop]
    simp
  · rw [List.length_take]; omega
  · rw [List.length_drop]; omega

theorem tsPatternL_no_dot {l : List Char} (h : tsPatternL l = true) : '.' ∉ l := by
  obtain ⟨d8, d6, rfl, _, _, h8, h9⟩ := tsPatternL_decomp h
  intro hmem
  rcases List.mem_append.mp hmem with h1 | h1
  · exact absurd (List.all_eq_true.mp h8 _ h1) (by decide)
  · rcases List.mem_cons.mp h1 with h2 | h2
    · exact absurd h2 (by decide)
    · exact absurd (List.all_eq_true.mp h9 _ h2) (by decide)

theorem tsPatternL_not_zip {l : List Char} (hz : endsWithL ".zip".data l = true) :
    tsPatternL l = false := by
  cases hts : tsPatternL l
  · rfl
  · exfalso
    obtain ⟨p, rfl⟩ := (endsWithL_iff _ _).mp hz
    have hdot : '.' ∈ p ++ ".zip".data := by
      apply List.mem_append.mpr
      right
      decide
    exact absurd hdot (tsPatternL_no_dot hts)

theorem name_not_in_dirnames {entries : List FsEntry}
    (hnd : (entries.map (fun e => e.name)).Nodup) {e : FsEntry} (he : e ∈ entries)
    (hnm : ¬(e.isDir = true ∧ tsPatternL e.name.data = true)) :
    e.name ∉ backupDirNames entries := by
  intro hmem
  obtain ⟨f, hf, hd, hp, hname⟩ := mem_backupDirNames.mp hmem
  have hfe : f = e := entry_eq_of_name_eq hnd hf he hname
  subst hfe
  exact hnm ⟨hd, hp⟩

theorem survival_characterization {entries : List FsEntry} {maxB : Nat}
    (hnd : (entries.map (fun e => e.name)).Nodup) {e : FsEntry} (he : e ∈ entries) :
    e ∈ Linux.remove_old_backups entries maxB ↔
      ¬(e.isDir = true ∧ tsPatternL e.name.data = true ∧
        maxB ≤ ((backupDirNames entries).filter (fun y => decide (e.name < y))).length) := by
  rw [mem_remove_old_backups]
  simp only [he, true_and]
  by_cases hm : e.isDir = true ∧ tsPatternL e.name.data = true
  · have hmemS : e.name ∈ sortDescBy id (backupDirNames entries) :=
      ((sortDescBy_perm id _).mem_iff).mpr
        (mem_backupDirNames.mpr ⟨e, he, hm.1, hm.2, rfl⟩)
    have hstrict := sortDescBy_names_strict (backupDirNames_nodup hnd)
    have hrank := mem_drop_iff_countP hstrict hmemS maxB
    have hcount : (sortDescBy id (backupDirNames entries)).countP
          (fun y => decide (e.name < y))
        = ((backupDirNames entries).filter (fun y => decide (e.name < y))).length := by
      rw [(sortDescBy_perm id (backupDirNames entries)).countP_eq,
        List.countP_eq_length_filter]
    have hiff : e.name ∈ (sortDescBy id (backupDirNames entries)).drop maxB ↔
        maxB ≤ ((backupDirNames entries).filter (fun y => decide (e.name < y))).length := by
      rw [hrank, hcount]
    constructor
    · intro hnot hconj
      exact hnot (hiff.mpr hconj.2.2)
    · intro hnot hmem
      exact hnot ⟨hm.1, hm.2, hiff.mp hmem⟩
  · have hnotin : e.name ∉ backupDirNames entries := name_not_in_dirnames hnd he hm
    have hnotdrop : e.name ∉ (sortDescBy id (backupDirNames entries)).drop maxB :=
      fun hmem =>
        hnotin (((sortDescBy_perm id _).mem_iff).mp (List.mem_of_mem_drop hmem))
    constructor
    · intro _ hconj
      exact hm ⟨hconj.1, hconj.2.1⟩
    · intro _
      exact hnotdrop

theorem remove_old_backups_of_le (entries : List FsEntry) (maxB : Nat)
    (hle : (backupDirNames entries).length ≤ maxB) :
    Linux.remove_old_backups entries maxB = entries := by
  rw [remove_old_backups_eq_filter]
  have hlen : (sortDescBy id (backupDirNames entries)).length ≤ maxB := by
    rw [(sortDescBy_perm id (backupDirNames entries)).length_eq]
    exact hle
  rw [List.drop_eq_nil_of_le hlen]
  simp

theorem remove_old_backups_sublist (entries : List FsEntry) (maxB : Nat) :
    (Linux.remove_old_backups entries maxB).Sublist entries := by
  rw [remove_old_backups_eq_filter]
  exact List.filter_sublist entries

theorem remove_old_backups_count_le (entries : List FsEntry) (maxB : Nat)
    (hnd : (entries.map (fun e => e.name)).Nodup) :
    (backupDirNames (Linux.remove_old_backups entries maxB)).length ≤ maxB := by
  have hndR : ((Linux.remove_old_backups entries maxB).map (fun e => e.name)).Nodup :=
    List.Nodup.sublist
      (List.Sublist.map (fun e => e.name) (remove_old_backups_sublist entries maxB)) hnd
  have hsub : ∀ x ∈ backupDirNames (Linux.remove_old_backups entries maxB),
      x ∈ (sortDescBy id (backupDirNames entries)).take maxB := by
    intro x hx
    obtain ⟨f, hfR, hd, hp, rfl⟩ := mem_backupDirNames.mp hx
    obtain ⟨hfE, hnotdrop⟩ := mem_remove_old_backups.mp hfR
    have hmemS : f.name ∈ sortDescBy id (backupDirNames entries) :=
      ((sortDescBy_perm id _).mem_iff).mpr
        (mem_backupDirNames.mpr ⟨f, hfE, hd, hp, rfl⟩)
    have hsplit := List.take_append_drop maxB (sortDescBy id (backupDirNames entries))
    rw [← hsplit] at hmemS
    rcases List.mem_append.mp hmemS with h1 | h1
    · exact h1
    · exact absurd h1 hnotdrop
  have hsp := (backupDirNames_nodup hndR).subperm hsub
  calc (backupDirNames (Linux.remove_old_backups entries maxB)).length
      ≤ ((sortDescBy id (backupDirNames entries)).take maxB).length := hsp.length_le
    _ ≤ maxB := List.length_take_le maxB _

/-! ## The resolution order of the locator as the specification words it -/

/-- Spec-side restatement of the locator resolution order, following the words
of the specification for the refinement comparison: an existing path is
returned unchanged; the identifier latest takes the head of the sorted
candidates; any other identifier takes the first candidate matching by exact
timestamp or by substring of the file name; otherwise not found. -/
def locatorResolveSpec (strIdentifier strBackupPath : String)
    (existingPaths : List String) (entries : List FsEntry) : Option String :=
  if strIdentifier ∈ existingPaths then some strIdentifier
  else
    let cands := MacOS.get_available_backups strBackupPath entries
    if strIdentifier = "latest" then cands.head?.map (fun r => r.path)
    else (cands.find? fun r =>
        r.timestamp == strIdentifier || hasSubstrL strIdentifier.data r.name.data).map
      (fun r => r.path)

/-! ## Concrete example listing used by witnesses -/

def exampleEntries : List FsEntry := [
  ⟨"20250101_000000", true, 10⟩, ⟨"20250102_000000", true, 11⟩,
  ⟨"20250103_000000", true, 12⟩, ⟨"20250104_000000", true, 13⟩,
  ⟨"20250105_000000", true, 14⟩, ⟨"20250106_000000", true, 15⟩,
  ⟨"20250107_000000", true, 16⟩, ⟨"20250108_000000", true, 17⟩,
  ⟨"20250109_000000", true, 18⟩, ⟨"20250110_000000", true, 19⟩,
  ⟨"backup_20250101_000000_abcd1234.zip", false, 99⟩, ⟨"notes", true, 5⟩]

/-! ## Claims about the platform variants and the retention manager -/

/-- C2 counterexample: the variants do not share the retention maximum nor the
timestamp format — Linux keeps 367 backups and suffixes its UTC timestamp with
a marker, macOS keeps 5 and uses the bare local timestamp. -/
theorem platform_variants_differ :
    Linux.INT_MAX_BACKUPS = 367 ∧ MacOS.INT_MAX_BACKUPS = 5 ∧
    Linux.INT_MAX_BACKUPS ≠ MacOS.INT_MAX_BACKUPS ∧
    Linux.STR_TIMESTAMP_of "20250101_000000" ≠ MacOS.STR_TIMESTAMP_of "20250101_000000" :=
  ⟨rfl, rfl, by decide, by decide⟩

/-- C2 amended: the variants share the retention-pruning behaviour function
for function, but differ in the retention maximum (367 against 5) and in the
timestamp format (the Linux timestamp always carries the UTC suffix). -/
theorem platform_variants_shared_core :
    (∀ (entries : List FsEntry) (m : Nat),
        Linux.remove_old_backups entries m = MacOS.remove_old_backups entries m)
    ∧ Linux.INT_MAX_BACKUPS = 367 ∧ MacOS.INT_MAX_BACKUPS = 5
    ∧ ∀ base : String, Linux.STR_TIMESTAMP_of base ≠ MacOS.STR_TIMESTAMP_of base := by
  refine ⟨fun entries m => rfl, rfl, rfl, ?_⟩
  intro base heq
  have hlen := congrArg String.length heq
  rw [Linux.STR_TIMESTAMP_of, MacOS.STR_TIMESTAMP_of, String.length_append] at hlen
  have h4 : ("_UTC" : String).length = 4 := rfl
  omega

/-- C3: retention pruning deletes exactly the matching timestamp-named
directories that have at least maxB lexicographically greater matching names
(keeping the maxB most recent), touches nothing else, and leaves every entry
whose name ends in .zip in place. -/
theorem retention_prunes_exactly (entries : List FsEntry) (maxB : Nat)
    (hnd : (entries.map (fun e => e.name)).Nodup) :
    (∀ e ∈ entries,
        (e ∈ Linux.remove_old_backups entries maxB ↔
          ¬(e.isDir = true ∧ tsPatternL e.name.data = true ∧
            maxB ≤ ((backupDirNames entries).filter (fun y => decide (e.name < y))).length)))
    ∧ (∀ e ∈ entries, endsWithL ".zip".data e.name.data = true →
        e ∈ Linux.remove_old_backups entries maxB)
    ∧ ∀ e ∈ Linux.remove_old_backups entries maxB, e ∈ entries := by
  refine ⟨fun e he => survival_characterization hnd he, ?_, ?_⟩
  · intro e he hz
    refine (survival_characterization hnd he).mpr ?_
    rintro ⟨-, hp, -⟩
    rw [tsPatternL_not_zip hz] at hp
    exact Bool.false_ne_true hp
  · intro e he
    exact (mem_remove_old_backups.mp he).1

theorem retention_prunes_exactly_witness :
    ((exampleEntries.map (fun e => e.name)).Nodup) ∧
    ((∀ e ∈ exampleEntries,
        (e ∈ Linux.remove_old_backups exampleEntries 5 ↔
          ¬(e.isDir = true ∧ tsPatternL e.name.data = true ∧
            5 ≤ ((backupDirNames exampleEntries).filter
              (fun y => decide (e.name < y))).length)))
      ∧ (∀ e ∈ exampleEntries, endsWithL ".zip".data e.name.data = true →
          e ∈ Linux.remove_old_backups exampleEntries 5)
      ∧ ∀ e ∈ Linux.remove_old_backups exampleEntries 5, e ∈ exampleEntries) :=
  ⟨by decide, retention_prunes_exactly exampleEntries 5 (by decide)⟩

/-- C8: with at most maxB matching directories present the pruning call is the
identity on the listing, and pruning is idempotent. -/
theorem retention_noop_when_compliant (entries : List FsEntry) (maxB : Nat)
    (hnd : (entries.map (fun e => e.name)).Nodup) :
    ((backupDirNames entries).length ≤ maxB →
        Linux.remove_old_backups entries maxB = entries)
    ∧ Linux.remove_old_backups (Linux.remove_old_backups entries maxB) maxB
        = Linux.remove_old_backups entries maxB :=
  ⟨remove_old_backups_of_le entries maxB,
    remove_old_backups_of_le _ maxB (remove_old_backups_count_le entries maxB hnd)⟩

theorem retention_noop_when_compliant_witness :
    ((exampleEntries.map (fun e => e.name)).Nodup) ∧
    (((backupDirNames exampleEntries).length ≤ 20 →
        Linux.remove_old_backups exampleEntries 20 = exampleEntries)
      ∧ Linux.remove_old_backups (Linux.remove_old_backups exampleEntries 20) 20
          = Linux.remove_old_backups exampleEntries 20) :=
  ⟨by decide, retention_noop_when_compliant exampleEntries 20 (by decide)⟩

/-- C4: the locator first honours an existing path, then resolves latest to
the most recent candidate and any other identifier to the first candidate,
in descending-timestamp order, matching by exact timestamp or substring; it
reports not found exactly when no candidate matches. -/
theorem locator_resolution_order (strIdentifier strBackupPath : String)
    (existingPaths : List String) (entries : List FsEntry) :
    MacOS.find_backup_by_identifier strIdentifier strBackupPath existingPaths entries
      = locatorResolveSpec strIdentifier strBackupPath existingPaths entries := by
  unfold MacOS.find_backup_by_identifier locatorResolveSpec
  by_cases hex : strIdentifier ∈ existingPaths
  · rw [if_pos hex, if_pos hex]
  · rw [if_neg hex, if_neg hex]
    cases hava : MacOS.get_available_backups strBackupPath entries with
    | nil => by_cases hlat : strIdentifier = "latest" <;> simp [hlat]
    | cons b rest => by_cases hlat : strIdentifier = "latest" <;> simp [hlat]

/-! ## Claims about the integrity verifier -/

/-- C5: an archive whose extension-stripped name does not end in an underscore
followed by exactly 8 hex characters is classified legacy/unknown by the
verifier, never verified and never failed, whatever its bytes and whatever
the algorithm. -/
theorem legacy_name_yields_unknown (zipName : String) (zipBytes : Option (List Nat))
    (strHashAlgorithm : String)
    (h : endsWithFingerprint (splitextStem zipName.data) = false) :
    verify_backup_integrity zipName zipBytes strHashAlgorithm = none := by
  have hnone : searchHashSuffix (splitextStem zipName.data) = none :=
    (searchHashSuffix_eq_none_iff _).mpr h
  unfold verify_backup_integrity
  simp only [hnone]

theorem legacy_name_yields_unknown_witness :
    endsWithFingerprint (splitextStem "backup_20250101_000000.zip".data) = false ∧
    verify_backup_integrity "backup_20250101_000000.zip" (some [80, 75, 3, 4]) "sha256"
      = none :=
  ⟨by decide,
    legacy_name_yields_unknown "backup_20250101_000000.zip" (some [80, 75, 3, 4]) "sha256"
      (by decide)⟩

/-- C10: an archive whose name carries a well-formed 8-hex fingerprint but
whose bytes cannot be read fails verification: the read error collapses to the
empty digest, whose short form can never equal the 8-character token; the
verifier returns failed, not legacy/unknown, and raises nothing. -/
theorem unreadable_fingerprinted_fails (zipName : String) (strHashAlgorithm : String)
    (h : endsWithFingerprint (splitextStem zipName.data) = true) :
    verify_backup_integrity zipName none strHashAlgorithm = some false := by
  obtain ⟨pre, hh, heq, hlen, hhex⟩ := (endsWithFingerprint_iff _).mp h
  have hsome : searchHashSuffix (splitextStem zipName.data) = some hh :=
    (searchHashSuffix_eq_some_iff _ _).mpr ⟨pre, heq, hlen, hhex⟩
  unfold verify_backup_integrity
  simp only [hsome]
  have hzero : get_short_hash (calculate_file_hash none strHashAlgorithm) = "" := rfl
  rw [hzero]
  rw [if_neg]
  intro hcontra
  have hd := congrArg (fun s : String => s.data.length) hcontra
  simp only [List.length_map] at hd
  rw [hlen] at hd
  exact absurd hd (by decide)

theorem unreadable_fingerprinted_fails_witness :
    endsWithFingerprint (splitextStem "backup_20250101_000000_UTC_abcd1234.zip".data)
      = true ∧
    verify_backup_integrity "backup_20250101_000000_UTC_abcd1234.zip" none "sha256"
      = some false :=
  ⟨by decide,
    unreadable_fingerprinted_fails "backup_20250101_000000_UTC_abcd1234.zip" "sha256"
      (by decide)⟩

/-! ## Claims about the archiver -/

/-- C6: any failure in steps 1-4 of compression (the ZIP write or the stats
getsize; hashing and naming cannot raise) leaves the uncompressed source
directory in place and returns its path, which lacks a .zip suffix whenever
the source path does; the source directory is removed only on full success. -/
theorem compress_failure_preserves_source (strTimestamp strBackupDir strBackupPath : String)
    (totalSize : Nat) (manifestBytes : Option (List Nat)) (strHashAlgorithm : String)
    (zipWrite : Except Unit (List Nat)) (statOk : Bool)
    (h : zipWrite = Except.error () ∨ statOk = false) :
    (Linux.compress_backup_directory strTimestamp strBackupDir strBackupPath totalSize
        manifestBytes strHashAlgorithm zipWrite statOk).returnedPath = strBackupDir
    ∧ (Linux.compress_backup_directory strTimestamp strBackupDir strBackupPath totalSize
        manifestBytes strHashAlgorithm zipWrite statOk).srcRemoved = false
    ∧ (endsWithL ".zip".data strBackupDir.data = false →
        endsWithL ".zip".data (Linux.compress_backup_directory strTimestamp strBackupDir
          strBackupPath totalSize manifestBytes strHashAlgorithm zipWrite
          statOk).returnedPath.data = false) := by
  rcases h with rfl | rfl
  · exact ⟨rfl, rfl, fun hz => hz⟩
  · cases zipWrite with
    | error e => exact ⟨rfl, rfl, fun hz => hz⟩
    | ok zipBytes => exact ⟨rfl, rfl, fun hz => hz⟩

theorem compress_failure_preserves_source_witness :
    (Linux.compress_backup_directory "20250101_000000_UTC" "/backups/20250101_000000_UTC"
        "/backups" 0 (some [1, 2]) "sha256" (Except.error ()) true).returnedPath
      = "/backups/20250101_000000_UTC"
    ∧ (Linux.compress_backup_directory "20250101_000000_UTC" "/backups/20250101_000000_UTC"
        "/backups" 0 (some [1, 2]) "sha256" (Except.error ()) true).srcRemoved = false
    ∧ (endsWithL ".zip".data "/backups/20250101_000000_UTC".data = false →
        endsWithL ".zip".data (Linux.compress_backup_directory "20250101_000000_UTC"
          "/backups/20250101_000000_UTC" "/backups" 0 (some [1, 2]) "sha256"
          (Except.error ()) true).returnedPath.data = false) :=
  compress_failure_preserves_source "20250101_000000_UTC" "/backups/20250101_000000_UTC"
    "/backups" 0 (some [1, 2]) "sha256" (Except.error ()) true (Or.inl rfl)

/-! ## Helper lemmas used by the round-trip and missing-manifest claims -/

theorem splitextStem_zip (m : List Char) (hne : m ≠ []) (hnd : '.' ∉ m) :
    splitextStem (m ++ ".zip".data) = m := by
  unfold splitextStem
  have hrev : (m ++ ".zip".data).reverse = 'p' :: 'i' :: 'z' :: '.' :: m.reverse := by
    rw [show ".zip".data = ['.', 'z', 'i', 'p'] from rfl, List.reverse_append]
    rfl
  rw [hrev]
  have hidx : firstDotIdx ('p' :: 'i' :: 'z' :: '.' :: m.reverse) = some 3 := rfl
  rw [hidx]
  dsimp only
  have hsep : (m ++ ".zip".data).length - 1 - 3 = m.length := by
    rw [List.length_append, show (".zip".data).length = 4 from rfl]
    omega
  rw [hsep]
  have htake : (m ++ ".zip".data).take m.length = m := List.take_left m _
  rw [htake]
  rw [if_pos]
  obtain ⟨c, hc⟩ := List.exists_mem_of_ne_nil m hne
  refine List.any_eq_true.mpr ⟨c, hc, ?_⟩
  simp only [bne_iff_ne, ne_eq]
  intro hcd
  exact hnd (hcd ▸ hc)

theorem timestampShape_decomp {ts : String} (hts : Linux.timestampShape ts = true) :
    tsPatternL (ts.data.take 15) = true ∧ ts.data = ts.data.take 15 ++ "_UTC".data := by
  unfold Linux.timestampShape at hts
  simp only [Bool.and_eq_true, beq_iff_eq] at hts
  refine ⟨hts.1, ?_⟩
  conv_lhs => rw [← List.take_append_drop 15 ts.data]
  rw [hts.2]

theorem no_dot_stem (ts : String) (hts : Linux.timestampShape ts = true) :
    '.' ∉ "backup_".data ++ ts.data ++ ['_'] := by
  obtain ⟨hpat, hdec⟩ := timestampShape_decomp hts
  intro hmem
  rcases List.mem_append.mp hmem with h1 | h1
  · rcases List.mem_append.mp h1 with h2 | h2
    · exact absurd h2 (by decide)
    · rw [hdec] at h2
      rcases List.mem_append.mp h2 with h3 | h3
      · exact absurd h3 (tsPatternL_no_dot hpat)
      · exact absurd h3 (by decide)
  · exact absurd h1 (by decide)

theorem scan_none_trailing (ts : String) (hts : Linux.timestampShape ts = true) :
    searchHashSuffix ("backup_".data ++ ts.data ++ ['_']) = none := by
  obtain ⟨hpat, hdec⟩ := timestampShape_decomp hts
  cases hscan : searchHashSuffix ("backup_".data ++ ts.data ++ ['_']) with
  | none => rfl
  | some h =>
    exfalso
    obtain ⟨pre, heq, hlen8, hhex⟩ := (searchHashSuffix_eq_some_iff _ _).mp hscan
    have h15 : (ts.data.take 15).length = 15 := by
      unfold tsPatternL at hpat
      simp only [Bool.and_eq_true, beq_iff_eq] at hpat
      exact hpat.1.1.1
    have hq : "backup_".data ++ ts.data ++ ['_']
        = ("backup_".data ++ ts.data.take 15) ++ ['_', 'U', 'T', 'C', '_'] := by
      conv_lhs => rw [hdec]
      rw [show ("_UTC" : String).data = ['_', 'U', 'T', 'C'] from rfl]
      simp [List.append_assoc]
    have hqlen : ("backup_".data ++ ts.data.take 15).length = 22 := by
      rw [List.length_append, show ("backup_".data).length = 7 from rfl, h15]
    have hmlen : ("backup_".data ++ ts.data ++ ['_']).length = 27 := by
      rw [hq, List.length_append, hqlen]
      rfl
    have hprelen : pre.length = 18 := by
      have hl := congrArg List.length heq
      rw [hmlen] at hl
      simp only [List.length_append, List.length_cons] at hl
      omega
    have hdrop : ("backup_".data ++ ts.data ++ ['_']).drop (pre.length + 1) = h := by
      rw [heq, show pre ++ '_' :: h = (pre ++ ['_']) ++ h by simp]
      exact List.drop_left' (by simp)
    have hdrop2 : ("backup_".data ++ ts.data ++ ['_']).drop 19
        = (("backup_".data ++ ts.data.take 15).drop 19) ++ ['_', 'U', 'T', 'C', '_'] := by
      rw [hq, List.drop_append_eq_append_drop,
        show 19 - ("backup_".data ++ ts.data.take 15).length = 0 by rw [hqlen]]
      rfl
    have h19 : pre.length + 1 = 19 := by omega
    have hUh : 'U' ∈ h := by
      rw [← hdrop, h19, hdrop2]
      exact List.mem_append.mpr (Or.inr (by decide))
    exact absurd (List.all_eq_true.mp hhex 'U' hUh) (by decide)

theorem verify_trailing_underscore_name (ts : String)
    (hts : Linux.timestampShape ts = true) (verBytes : Option (List Nat)) (verAlg : String) :
    verify_backup_integrity ("backup_" ++ ts ++ "_.zip") verBytes verAlg = none := by
  have hdata : ("backup_" ++ ts ++ "_.zip").data
      = ("backup_".data ++ ts.data ++ ['_']) ++ ".zip".data := by
    simp only [String.data_append,
      show ("_.zip" : String).data = ['_'] ++ ".zip".data from rfl, List.append_assoc]
    rfl
  have hstem : splitextStem ("backup_" ++ ts ++ "_.zip").data
      = "backup_".data ++ ts.data ++ ['_'] := by
    rw [hdata]
    exact splitextStem_zip _ (by simp) (no_dot_stem ts hts)
  have hnone : searchHashSuffix (splitextStem ("backup_" ++ ts ++ "_.zip").data) = none := by
    rw [hstem]
    exact scan_none_trailing ts hts
  unfold verify_backup_integrity
  simp only [hnone]

/-- C9: with the manifest missing or unreadable but the ZIP write succeeding,
compression still succeeds silently: the hash failure collapses to an empty
fingerprint, the archive is named with a bare trailing underscore, the
uncompressed source directory is removed all the same, and the verifier later
classifies that archive name legacy/unknown, not failed. -/
theorem missing_manifest_silent_success (ts strBackupDir strBackupPath : String)
    (totalSize : Nat) (strHashAlgorithm : String) (zipBytes : List Nat)
    (verBytes : Option (List Nat)) (verAlg : String)
    (hts : Linux.timestampShape ts = true) :
    Linux.compress_backup_directory ts strBackupDir strBackupPath totalSize none
        strHashAlgorithm (Except.ok zipBytes) true
      = ⟨strBackupPath ++ "/" ++ ("backup_" ++ ts ++ "_.zip"), true,
          some ("backup_" ++ ts ++ "_.zip", zipBytes)⟩
    ∧ verify_backup_integrity ("backup_" ++ ts ++ "_.zip") verBytes verAlg = none := by
  constructor
  · have hname : "backup_" ++ ts ++ "_"
        ++ get_short_hash (calculate_file_hash none strHashAlgorithm) ++ ".zip"
        = "backup_" ++ ts ++ "_.zip" := by
      apply String.ext
      simp only [String.data_append,
        show (get_short_hash (calculate_file_hash none strHashAlgorithm)) = "" from rfl,
        show ("" : String).data = [] from rfl,
        show ("_.zip" : String).data = ['_'] ++ ".zip".data from rfl, List.append_assoc,
        List.nil_append, List.append_nil]
      simp
    unfold Linux.compress_backup_directory
    dsimp only
    rw [hname, if_pos rfl]
  · exact verify_trailing_underscore_name ts hts verBytes verAlg

theorem missing_manifest_silent_success_witness :
    Linux.timestampShape "20250101_000000_UTC" = true ∧
    (Linux.compress_backup_directory "20250101_000000_UTC" "/backups/20250101_000000_UTC"
        "/backups" 0 none "sha256" (Except.ok [80, 75, 3, 4]) true
      = ⟨"/backups" ++ "/" ++ ("backup_" ++ "20250101_000000_UTC" ++ "_.zip"), true,
          some ("backup_" ++ "20250101_000000_UTC" ++ "_.zip", [80, 75, 3, 4])⟩
    ∧ verify_backup_integrity ("backup_" ++ "20250101_000000_UTC" ++ "_.zip")
        (some [80, 75, 3, 4]) "sha256" = none) :=
  ⟨by decide,
    missing_manifest_silent_success "20250101_000000_UTC" "/backups/20250101_000000_UTC"
      "/backups" 0 "sha256" [80, 75, 3, 4] (some [80, 75, 3, 4]) "sha256" (by decide)⟩

/-! ## Helper lemmas: shape of the hex digests -/

def isLowerHexChar (c : Char) : Bool :=
  c.isDigit || (decide ('a' ≤ c) && decide (c ≤ 'f'))

theorem hexChar_mem (n : Nat) : hexChar n ∈ hexDigitsLower := by
  by_cases h : n < 16
  · interval_cases n <;> decide
  · unfold hexChar
    rw [List.getD_eq_default]
    · decide
    · rw [show hexDigitsLower.length = 16 from rfl]
      omega

theorem hexDigitsLower_isLower : ∀ c ∈ hexDigitsLower, isLowerHexChar c = true := by
  decide

theorem hexDigitsLower_isHexDigit : ∀ c ∈ hexDigitsLower, isHexDigitChar c = true := by
  decide

theorem hexDigitsLower_lowerChar : ∀ c ∈ hexDigitsLower, lowerChar c = c := by
  decide

theorem hexDigitsLower_no_dot : ('.' : Char) ∉ hexDigitsLower := by
  decide

theorem wordHexBE_chars (x : Nat) : ∀ c ∈ wordHexBE x, c ∈ hexDigitsLower := by
  intro c hc
  simp only [wordHexBE, List.mem_cons, List.not_mem_nil, or_false] at hc
  rcases hc with rfl | rfl | rfl | rfl | rfl | rfl | rfl | rfl <;> exact hexChar_mem _

theorem wordHexBE_length (x : Nat) : (wordHexBE x).length = 8 := rfl

theorem sha256Block_length (hs block : List Nat) : (sha256Block hs block).length = 8 := rfl

theorem foldl_sha256Block_length (blocks : List (List Nat)) (init : List Nat)
    (h : init.length = 8) : (blocks.foldl sha256Block init).length = 8 := by
  induction blocks generalizing init with
  | nil => exact h
  | cons b bs ih =>
    simp only [List.foldl_cons]
    exact ih _ rfl

theorem sha256Words_length (msg : List Nat) : (sha256Words msg).length = 8 :=
  foldl_sha256Block_length _ sha256H0 rfl

theorem flatten_map_wordHexBE_length (ws : List Nat) :
    ((ws.map wordHexBE).flatten).length = 8 * ws.length := by
  induction ws with
  | nil => rfl
  | cons w t ih =>
    simp only [List.map_cons, List.flatten_cons, List.length_append, ih,
      wordHexBE_length, List.length_cons]
    ring

theorem sha256Hex_length (msg : List Nat) : (sha256Hex msg).length = 64 := by
  show (((sha256Words msg).map wordHexBE).flatten).length = 64
  rw [flatten_map_wordHexBE_length, sha256Words_length]

theorem sha256Hex_chars (msg : List Nat) :
    ∀ c ∈ (sha256Hex msg).data, c ∈ hexDigitsLower := by
  intro c hc
  have hc' : c ∈ ((sha256Words msg).map wordHexBE).flatten := hc
  rw [List.mem_flatten] at hc'
  obtain ⟨s, hs, hcs⟩ := hc'
  rw [List.mem_map] at hs
  obtain ⟨x, _, rfl⟩ := hs
  exact wordHexBE_chars x c hcs

theorem calculate_some_sha256 (contents : List Nat) :
    calculate_file_hash (some contents) "sha256" = sha256Hex contents := rfl

theorem get_short_hash_sha256 (contents : List Nat) :
    get_short_hash (sha256Hex contents) = String.mk ((sha256Hex contents).data.take 8) := by
  unfold get_short_hash
  rw [if_pos]
  rw [sha256Hex_length]
  omega

/-! ## Claim about the hashing helpers -/

/-- C7: the short digest of the SHA-256 of any readable file has exactly 8
characters, each a lowercase hex digit, and depends only on the file
contents. -/
theorem short_digest_shape (contents : List Nat) :
    (get_short_hash (calculate_file_hash (some contents) "sha256")).length = 8
    ∧ (∀ c ∈ (get_short_hash (calculate_file_hash (some contents) "sha256")).data,
        isLowerHexChar c = true)
    ∧ ∀ contents2 : List Nat, contents = contents2 →
        get_short_hash (calculate_file_hash (some contents) "sha256")
          = get_short_hash (calculate_file_hash (some contents2) "sha256") := by
  rw [calculate_some_sha256, get_short_hash_sha256]
  refine ⟨?_, ?_, ?_⟩
  · show ((sha256Hex contents).data.take 8).length = 8
    rw [List.length_take]
    have h64 : (sha256Hex contents).data.length = 64 := sha256Hex_length contents
    rw [h64]
    decide
  · intro c hc
    have hc' : c ∈ (sha256Hex contents).data := List.mem_of_mem_take hc
    exact hexDigitsLower_isLower c (sha256Hex_chars contents c hc')
  · rintro c2 rfl
    rw [calculate_some_sha256, get_short_hash_sha256]

/-! ## Helper lemmas: verification of a freshly produced archive -/

theorem map_lowerChar_fix (l : List Char) (h : ∀ c ∈ l, c ∈ hexDigitsLower) :
    l.map lowerChar = l := by
  induction l with
  | nil => rfl
  | cons c t ih =>
    rw [List.map_cons, hexDigitsLower_lowerChar c (h c (List.mem_cons_self c t)),
      ih fun d hd => h d (List.mem_cons_of_mem c hd)]

theorem short_sha256_data (M : List Nat) :
    (get_short_hash (sha256Hex M)).data = (sha256Hex M).data.take 8 := by
  rw [get_short_hash_sha256]

theorem short_sha256_data_length (M : List Nat) :
    (get_short_hash (sha256Hex M)).data.length = 8 := by
  rw [short_sha256_data, List.length_take]
  have h64 : (sha256Hex M).data.length = 64 := sha256Hex_length M
  rw [h64]
  decide

theorem short_sha256_chars (M : List Nat) :
    ∀ c ∈ (get_short_hash (sha256Hex M)).data, c ∈ hexDigitsLower := by
  intro c hc
  rw [short_sha256_data] at hc
  exact sha256Hex_chars M c (List.mem_of_mem_take hc)

theorem verify_fresh_archive (ts : String) (hts : Linux.timestampShape ts = true)
    (M Z : List Nat) :
    verify_backup_integrity
        ("backup_" ++ ts ++ "_" ++ get_short_hash (sha256Hex M) ++ ".zip") (some Z) "sha256"
      = some true
    ↔ get_short_hash (sha256Hex Z) = get_short_hash (sha256Hex M) := by
  have hdata : ("backup_" ++ ts ++ "_" ++ get_short_hash (sha256Hex M) ++ ".zip").data
      = ("backup_".data ++ ts.data ++ ['_'] ++ (get_short_hash (sha256Hex M)).data)
        ++ ".zip".data := by
    simp only [String.data_append, show ("_" : String).data = ['_'] from rfl,
      List.append_assoc]
  have hnodot : ('.' : Char)
      ∉ "backup_".data ++ ts.data ++ ['_'] ++ (get_short_hash (sha256Hex M)).data := by
    intro hmem
    rcases List.mem_append.mp hmem with h1 | h1
    · exact no_dot_stem ts hts h1
    · exact hexDigitsLower_no_dot (short_sha256_chars M _ h1)
  have hstem : splitextStem
        ("backup_" ++ ts ++ "_" ++ get_short_hash (sha256Hex M) ++ ".zip").data
      = "backup_".data ++ ts.data ++ ['_'] ++ (get_short_hash (sha256Hex M)).data := by
    rw [hdata]
    exact splitextStem_zip _ (by simp) hnodot
  have hscan : searchHashSuffix
        ("backup_".data ++ ts.data ++ ['_'] ++ (get_short_hash (sha256Hex M)).data)
      = some (get_short_hash (sha256Hex M)).data := by
    apply (searchHashSuffix_eq_some_iff _ _).mpr
    refine ⟨"backup_".data ++ ts.data, ?_, short_sha256_data_length M, ?_⟩
    · simp [List.append_assoc]
    · rw [List.all_eq_true]
      intro c hc
      exact hexDigitsLower_isHexDigit c (short_sha256_chars M c hc)
  unfold verify_backup_integrity
  simp only [hstem, hscan]
  rw [show calculate_file_hash (some Z) "sha256" = sha256Hex Z from rfl]
  rw [map_lowerChar_fix _ (short_sha256_chars M), map_lowerChar_fix _ (short_sha256_chars Z)]
  by_cases hzm : get_short_hash (sha256Hex Z) = get_short_hash (sha256Hex M)
  · simp [hzm]
  · simp [hzm]

/-! ## The round-trip claim -/

/-- Byte contents of a small backup manifest, a JSON object naming version,
platform and completion status. -/
def manifestExample : List Nat := [
  123, 34, 118, 101, 114, 115, 105, 111, 110, 34, 58, 32, 34, 50, 46, 48,
  46, 48, 34, 44, 32, 34, 112, 108, 97, 116, 102, 111, 114, 109, 34, 58,
  32, 34, 76, 105, 110, 117, 120, 34, 44, 32, 34, 115, 116, 97, 116, 117,
  115, 34, 58, 32, 34, 99, 111, 109, 112, 108, 101, 116, 101, 100, 34, 125]

/-- Byte contents of a small archive: the ZIP local-file-header magic
followed by payload bytes. A ZIP archive never equals the manifest it
contains, so its digest differs from the digest embedded in its name. -/
def zipExample : List Nat := [
  80, 75, 3, 4, 0, 1, 2, 3, 4, 5, 6, 7, 8, 9, 10, 11, 12, 13, 14, 15, 16,
  17, 18, 19, 20, 21, 22, 23, 24, 25, 26, 27, 28, 29, 30, 31]

set_option maxRecDepth 40000 in
/-- C1 (the code contradicts the claim): the archive name embeds the short
SHA-256 of the manifest, while verification recomputes the short SHA-256 of
the archive bytes, so the round trip yields verified only when those two
digests coincide; on a concrete backup run the produced archive is named
with the manifest digest 28bf183d yet hashes to 49857c08, and verification
of the fresh archive returns failed. -/
theorem roundtrip_verification_mismatch :
    (∀ (ts strBackupDir strBackupPath : String) (totalSize : Nat) (M Z : List Nat),
        Linux.timestampShape ts = true →
        (Linux.compress_backup_directory ts strBackupDir strBackupPath totalSize (some M)
            "sha256" (Except.ok Z) true).archive
          = some ("backup_" ++ ts ++ "_" ++ get_short_hash (sha256Hex M) ++ ".zip", Z)
        ∧ (verify_backup_integrity
              ("backup_" ++ ts ++ "_" ++ get_short_hash (sha256Hex M) ++ ".zip")
              (some Z) "sha256" = some true
            ↔ get_short_hash (sha256Hex Z) = get_short_hash (sha256Hex M)))
    ∧ (Linux.compress_backup_directory "20250101_000000_UTC"
          "/backups/20250101_000000_UTC" "/backups" 64 (some manifestExample) "sha256"
          (Except.ok zipExample) true).archive
        = some ("backup_20250101_000000_UTC_28bf183d.zip", zipExample)
    ∧ verify_backup_integrity "backup_20250101_000000_UTC_28bf183d.zip"
        (some zipExample) "sha256" = some false := by
  refine ⟨?_, by decide, by decide⟩
  intro ts strBackupDir strBackupPath totalSize M Z hts
  exact ⟨rfl, verify_fresh_archive ts hts M Z⟩

/-! ## Test vectors pinning the digest implementations to hashlib -/

set_option maxRecDepth 8000 in
theorem sha256Hex_test_vector :
    sha256Hex [97, 98, 99]
      = "ba7816bf8f01cfea414140de5dae2223b00361a396177a9cb410ff61f20015ad"
    ∧ sha256Hex []
      = "e3b0c44298fc1c149afbf4c8996fb92427ae41e4649b934ca495991b7852b855" := by
  constructor <;> decide

set_option maxRecDepth 8000 in
theorem sha1Hex_test_vector :
    sha1Hex [97, 98, 99] = "a9993e364706816aba3e25717850c26c9cd0d89d"
    ∧ sha1Hex [] = "da39a3ee5e6b4b0d3255bfef95601890afd80709" := by
  constructor <;> decide

set_option maxRecDepth 8000 in
theorem md5Hex_test_vector :
    md5Hex [97, 98, 99] = "900150983cd24fb0d6963f7d28e17f72"
    ∧ md5Hex [] = "d41d8cd98f00b204e9800998ecf8427e" := by
  constructor <;> decide
